import Mathlib

/-!
Verification of the clockodo-cli core: the time-range resolver
(`src/lib/time.ts`), the entry grouping/aggregation engine
(`src/commands/report.ts`, `src/commands/entries.ts`), and the report
orchestrator's validation and totalling logic.

Modelling conventions:
* A JS `Date` is its epoch value in milliseconds (`Int`).  The strings the
  CLI sends to the API have second precision; `toClockodoDateTime` therefore
  maps a millisecond instant to the whole second it prints (floor, matching
  `Date.prototype.toISOString` followed by stripping the `.SSS` part).
* The process-local timezone is modelled as a fixed offset of `tz` minutes
  east of UTC (JS `getTimezoneOffset()` returns minutes; DST transitions are
  outside the model): local wall-clock ms = UTC ms + `tz * 60000`.
* The string classification performed by the regexes in `parseDateTime` /
  `parseDateTimeUntil` (keyword / `YYYY-MM-DD` / `YYYY-MM-DD HH:mm` /
  `HH:mm` / generic parseable / unparseable) is mutually exclusive, so the
  input is modelled by the inductive `DTInput` of those syntactic classes.
-/

namespace Clockodo

/-- Epoch days of a proleptic-Gregorian civil date (the arithmetic JS `Date`
uses when parsing `YYYY-MM-DDTHH:mm:ss`). -/
def daysFromCivil (y m d : Int) : Int :=
  let y' := if m ≤ 2 then y - 1 else y
  let era := (if 0 ≤ y' then y' else y' - 399).fdiv 400
  let yoe := y' - era * 400
  let mp := (m + 9) % 12
  let doy := (153 * mp + 2).fdiv 5 + d - 1
  let doe := yoe * 365 + yoe.fdiv 4 - yoe.fdiv 100 + doy
  era * 146097 + doe - 719468

/-- `new Date("YYYY-MM-DDTHH:mm:ss")` (no zone suffix): local wall-clock
time, converted to a UTC epoch millisecond value. -/
def localCivilMs (tz y m d hh mi : Int) : Int :=
  daysFromCivil y m d * 86400000 + hh * 3600000 + mi * 60000 - tz * 60000

/-- `toClockodoDateTime` from `src/lib/time.ts`: ISO string without
milliseconds, i.e. the instant floored to whole seconds. -/
def toClockodoDateTime (ms : Int) : Int :=
  ms.fdiv 1000

/-- date-fns `startOfDay` in the fixed-offset local timezone (ms). -/
def startOfDay (tz ms : Int) : Int :=
  ((ms + tz * 60000).fdiv 86400000) * 86400000 - tz * 60000

/-- date-fns `endOfDay`: local 23:59:59.999 of the same local day (ms). -/
def endOfDay (tz ms : Int) : Int :=
  startOfDay tz ms + 86399999

/-- date-fns `addDays` under the fixed-offset model (ms). -/
def addDays (ms n : Int) : Int :=
  ms + n * 86400000

/-- The relative-day keywords recognised case-insensitively by
`parseDateTime` and `parseDateTimeUntil`. -/
inductive DTKeyword where
  | today
  | yesterday
  | tomorrow
  deriving DecidableEq

/-- Day offset a keyword stands for. -/
def DTKeyword.offset : DTKeyword → Int
  | .today => 0
  | .yesterday => -1
  | .tomorrow => 1

/-- The mutually exclusive syntactic classes the regex dispatch in
`src/lib/time.ts` distinguishes.  `generic` is any other string JS
`new Date(input)` parses (carrying the instant it parses to, in ms);
`invalid` is an unparseable string. -/
inductive DTInput where
  | keyword (k : DTKeyword)
  | bareDate (y m d : Int)
  | dateTimeLocal (y m d hh mi : Int)
  | bareTime (hh mi : Int)
  | generic (ms : Int)
  | invalid (s : String)
  deriving DecidableEq

/-- `parseDateTime` from `src/lib/time.ts` (the "since" parser): keywords
and bare dates resolve to local midnight; `now` is the current instant in
ms.  Returns the API string's instant in whole seconds, or the thrown
error message. -/
def parseDateTime (now tz : Int) : DTInput → Except String Int
  | .keyword k => .ok (toClockodoDateTime (startOfDay tz (addDays now k.offset)))
  | .bareDate y m d => .ok (toClockodoDateTime (localCivilMs tz y m d 0 0))
  | .dateTimeLocal y m d hh mi => .ok (toClockodoDateTime (localCivilMs tz y m d hh mi))
  | .bareTime hh mi => .ok (toClockodoDateTime (startOfDay tz now + hh * 3600000 + mi * 60000))
  | .generic ms => .ok (toClockodoDateTime ms)
  | .invalid s => .error ("Cannot parse date: \"" ++ s ++ "\"")

/-- `parseDateTimeUntil` from `src/lib/time.ts` (the "until" parser):
keywords and bare dates resolve to local end of day; everything else is
delegated unchanged to `parseDateTime`. -/
def parseDateTimeUntil (now tz : Int) : DTInput → Except String Int
  | .keyword k => .ok (toClockodoDateTime (endOfDay tz (addDays now k.offset)))
  | .bareDate y m d => .ok (toClockodoDateTime (endOfDay tz (localCivilMs tz y m d 0 0)))
  | .dateTimeLocal y m d hh mi => parseDateTime now tz (.dateTimeLocal y m d hh mi)
  | .bareTime hh mi => parseDateTime now tz (.bareTime hh mi)
  | .generic ms => parseDateTime now tz (.generic ms)
  | .invalid s => parseDateTime now tz (.invalid s)

/-- `CliError` from `src/lib/errors.ts` (message, stable exit code,
optional hint). -/
structure CliError where
  message : String
  exitCode : Nat
  hint : Option String := none
  deriving DecidableEq

/-- `ExitCode.INVALID_ARGS` from `src/lib/errors.ts`. -/
def invalidArgsExit : Nat := 2

/-- `ExitCode.GENERAL_ERROR`: an uncaught parse `Error` surfaces with this
code. -/
def generalErrorExit : Nat := 1

/-- The `report custom` action (`src/commands/report.ts`, lines 284-291):
both `--since` and `--until` are parsed with `parseDateTime`, and the
resolved range is validated with `since >= until` before `runReport` is
invoked.  `.ok` carries the range handed to the remote call; `.error`
means the command aborts before any remote call. -/
def reportCustomRange (now tz : Int) (sinceIn untilIn : DTInput) :
    Except CliError (Int × Int) :=
  match parseDateTime now tz sinceIn, parseDateTime now tz untilIn with
  | .error e, _ => .error ⟨e, generalErrorExit, none⟩
  | .ok _, .error e => .error ⟨e, generalErrorExit, none⟩
  | .ok since, .ok untl =>
      if untl ≤ since then
        .error ⟨"--since must be before --until", invalidArgsExit, none⟩
      else
        .ok (since, untl)

/-- The range resolution of `entries list` (`src/commands/entries.ts`,
lines 35-52): `--since` defaults to the string `"today"`; an omitted
`--until` resolves to `endOfDay` of the current instant.  `.ok` carries
the `(timeSince, timeUntil)` pair sent to the remote `getEntries` call. -/
def entriesListRange (now tz : Int) (sinceOpt untilOpt : Option DTInput) :
    Except String (Int × Int) :=
  match parseDateTime now tz (sinceOpt.getD (.keyword .today)) with
  | .error e => .error e
  | .ok since =>
      match untilOpt with
      | some u => (parseDateTime now tz u).map (fun untl => (since, untl))
      | none => .ok (since, toClockodoDateTime (endOfDay tz now))

/-! ### Arithmetic helpers for floor division -/

/-- Floor-dividing `1000 * b + c` by `1000` recovers `b` when
`0 ≤ c < 1000`. -/
theorem fdiv_thousand (b c : Int) (h0 : 0 ≤ c) (h1 : c < 1000) :
    (1000 * b + c).fdiv 1000 = b := by
  rw [Int.fdiv_eq_ediv _ (by omega)]
  omega

/-- Floor-dividing an exact multiple of 1000 by 1000 recovers the factor. -/
theorem fdiv_thousand_exact (b : Int) : (1000 * b).fdiv 1000 = b := by
  rw [Int.fdiv_eq_ediv _ (by omega)]
  omega

/-- `startOfDay` is a multiple of 1000 ms shifted by the (whole-minute)
timezone: it can be written as `1000 * (86400 * q - 60 * tz)`. -/
theorem startOfDay_factor (tz ms : Int) :
    ∃ q, startOfDay tz ms = 1000 * (86400 * q - 60 * tz) ∧
      1000 * (86400 * q - 60 * tz) ≤ ms ∧
      ms < 1000 * (86400 * q - 60 * tz) + 86400000 := by
  refine ⟨(ms + tz * 60000).fdiv 86400000, ?_, ?_, ?_⟩ <;>
    · simp only [startOfDay, Int.fdiv_eq_ediv _ (by omega : (0:Int) ≤ 86400000)]
      omega

/-- `startOfDay` fixes instants that are already a local midnight. -/
theorem startOfDay_fixed (tz q : Int) :
    startOfDay tz (1000 * (86400 * q - 60 * tz)) = 1000 * (86400 * q - 60 * tz) := by
  simp only [startOfDay, Int.fdiv_eq_ediv _ (by omega : (0:Int) ≤ 86400000)]
  omega

/-- Flooring a local midnight and the matching local 23:59:59.999 to whole
seconds leaves a gap of exactly 86399 seconds, and the floored midnight is
second 0 of its local day. -/
theorem until_since_gap (tz q : Int) :
    toClockodoDateTime (1000 * (86400 * q - 60 * tz) + 86399999)
      = toClockodoDateTime (1000 * (86400 * q - 60 * tz)) + 86399 ∧
    (toClockodoDateTime (1000 * (86400 * q - 60 * tz)) + tz * 60) % 86400 = 0 := by
  have h1 : toClockodoDateTime (1000 * (86400 * q - 60 * tz)) = 86400 * q - 60 * tz :=
    fdiv_thousand_exact _
  constructor
  · have h2 : 1000 * (86400 * q - 60 * tz) + 86399999
        = 1000 * (86400 * q - 60 * tz + 86399) + 999 := by ring
    rw [toClockodoDateTime, h2, fdiv_thousand _ _ (by omega) (by omega), h1]
  · rw [h1]
    omega

/-- C2: for every bare `YYYY-MM-DD` date and every keyword
(today/yesterday/tomorrow), the until-parser yields exactly 86399 seconds
more than the since-parser on the same input, and the since value is a
local midnight (second 0 of its local day, so the until value is local
23:59:59). -/
theorem bare_until_is_since_plus_86399 (now tz y m d : Int) (k : DTKeyword) :
    (∃ t, parseDateTime now tz (.bareDate y m d) = .ok t ∧
       parseDateTimeUntil now tz (.bareDate y m d) = .ok (t + 86399) ∧
       (t + tz * 60) % 86400 = 0) ∧
    (∃ t, parseDateTime now tz (.keyword k) = .ok t ∧
       parseDateTimeUntil now tz (.keyword k) = .ok (t + 86399) ∧
       (t + tz * 60) % 86400 = 0) := by
  constructor
  · have hD : localCivilMs tz y m d 0 0
        = 1000 * (86400 * daysFromCivil y m d - 60 * tz) := by
      simp only [localCivilMs]
      ring
    obtain ⟨h1, h2⟩ := until_since_gap tz (daysFromCivil y m d)
    refine ⟨toClockodoDateTime (localCivilMs tz y m d 0 0), rfl, ?_, ?_⟩
    · show Except.ok (toClockodoDateTime (endOfDay tz (localCivilMs tz y m d 0 0))) = _
      rw [endOfDay, hD, startOfDay_fixed, h1]
    · rw [hD]
      exact h2
  · obtain ⟨q, hq, -, -⟩ := startOfDay_factor tz (addDays now k.offset)
    obtain ⟨h1, h2⟩ := until_since_gap tz q
    refine ⟨toClockodoDateTime (startOfDay tz (addDays now k.offset)), rfl, ?_, ?_⟩
    · show Except.ok (toClockodoDateTime (endOfDay tz (addDays now k.offset))) = _
      rw [endOfDay, hq, h1]
    · rw [hq]
      exact h2

/-- C10: with neither `--since` nor `--until`, `entries list` resolves the
range from `"today"` (local midnight) to `endOfDay(now)` (local 23:59:59):
the range is 86399 seconds long, starts at second 0 of a local day and
contains the current instant, so `since < until` always holds. -/
theorem entries_list_default_range_is_today (now tz : Int) :
    ∃ s, entriesListRange now tz none none = .ok (s, s + 86399) ∧
      (s + tz * 60) % 86400 = 0 ∧
      s ≤ toClockodoDateTime now ∧ toClockodoDateTime now ≤ s + 86399 := by
  obtain ⟨q, hq, hlo, hhi⟩ := startOfDay_factor tz now
  have hnow : addDays now (DTKeyword.offset .today) = now := by
    simp only [addDays, DTKeyword.offset]
    ring
  obtain ⟨h1, h2⟩ := until_since_gap tz q
  have h3 : toClockodoDateTime (1000 * (86400 * q - 60 * tz)) = 86400 * q - 60 * tz :=
    fdiv_thousand_exact _
  refine ⟨toClockodoDateTime (startOfDay tz now), ?_, ?_, ?_, ?_⟩
  · show Except.ok (toClockodoDateTime (startOfDay tz (addDays now (DTKeyword.offset .today))),
        toClockodoDateTime (endOfDay tz now)) = _
    rw [hnow, endOfDay, hq, h1]
  · rw [hq]
    exact h2
  · rw [hq, h3, toClockodoDateTime, Int.fdiv_eq_ediv _ (by omega : (0:Int) ≤ 1000)]
    omega
  · rw [hq, h3, toClockodoDateTime, Int.fdiv_eq_ediv _ (by omega : (0:Int) ≤ 1000)]
    omega

/-- C7: whenever the parsed `--since` instant is not strictly before the
parsed `--until` instant, `report custom` aborts with the invalid-argument
`CliError` — the `.error` result means `runReport`, and hence any remote
call, is never reached. -/
theorem report_custom_rejects_empty_range (now tz : Int) (sIn uIn : DTInput)
    (s u : Int) (hs : parseDateTime now tz sIn = .ok s)
    (hu : parseDateTime now tz uIn = .ok u) (h : u ≤ s) :
    reportCustomRange now tz sIn uIn =
      .error ⟨"--since must be before --until", invalidArgsExit, none⟩ := by
  unfold reportCustomRange
  rw [hs, hu]
  simp [h]

/-- Witness for `report_custom_rejects_empty_range`: the spec scenario
`--since 2026-02-28 --until 2026-02-01` (UTC, now = epoch). -/
theorem report_custom_rejects_empty_range_witness :
    reportCustomRange 0 0 (.bareDate 2026 2 28) (.bareDate 2026 2 1) =
      .error ⟨"--since must be before --until", invalidArgsExit, none⟩ :=
  report_custom_rejects_empty_range 0 0 (.bareDate 2026 2 28) (.bareDate 2026 2 1)
    1772236800 1769904000 (by rfl) (by rfl) (by decide)

/-- C3 (code bug): at the command level the asymmetry does NOT exist —
both `report custom` (src/commands/report.ts lines 285-286) and
`entries list` (src/commands/entries.ts lines 49-51) parse `--until` with
`parseDateTime`, not `parseDateTimeUntil`.  Passing the bare date
2026-02-25 to both flags makes `report custom` abort with the
invalid-argument error (since = until), and makes `entries list` send a
zero-length range, contradicting the repository's own tests
(tests/commands/report.test.ts, "report custom --until end-of-day"). -/
theorem report_custom_same_bare_date_is_rejected :
    reportCustomRange 0 0 (.bareDate 2026 2 25) (.bareDate 2026 2 25) =
      .error ⟨"--since must be before --until", invalidArgsExit, none⟩ ∧
    entriesListRange 0 0 (some (.bareDate 2026 2 25)) (some (.bareDate 2026 2 25)) =
      .ok (1771977600, 1771977600) := by
  constructor
  · rfl
  · rfl

/-! ### Entries and the grouping engine -/

/-- A time entry as returned by the remote API — the fields the grouping
code reads.  Instants are API-second values; `timeUntil = none` models a
null/absent end instant (a currently running entry) and `duration`
mirrors that nullability. -/
structure Entry where
  timeSince : Int
  timeUntil : Option Int
  duration : Option Int := none
  text : Option String := none
  customersId : Int := 0
  projectsId : Option Int := none
  servicesId : Option Int := none
  deriving DecidableEq

/-- Modelled from the spec: `getEntryDurationUntilNow` is imported from
the external `clockodo` SDK and its body is not part of this repository.
Spec §4.2 (Duration Calculator): a closed entry's duration is end − start
in whole seconds; a running entry's duration is now − start, with `now`
captured once per operation (passed here explicitly). -/
def getEntryDurationUntilNow (now : Int) (e : Entry) : Int :=
  match e.timeUntil with
  | some untl => untl - e.timeSince
  | none => now - e.timeSince

/-- The text-mode group key `e.text || "(no description)"` (JS `||`:
null, undefined and the empty string all fall through). -/
def textKey (e : Entry) : String :=
  match e.text with
  | some t => if t = "" then ("(no description)") else t
  | none => ("(no description)")

/-- One recorded `{since, until}` pair of a text-mode group (`until` is a
reserved word in Lean, hence the field name `untl`). -/
structure TimeRange where
  since : Int
  untl : Int
  deriving DecidableEq

/-- The range `{since: e.timeSince, until: e.timeUntil ?? now}` recorded
for an entry in text mode. -/
def rangeOf (now : Int) (e : Entry) : TimeRange :=
  ⟨e.timeSince, e.timeUntil.getD now⟩

/-- `TextGroup` from `src/commands/report.ts`. -/
structure TextGroup where
  key : String
  count : Nat
  seconds : Int
  timeRanges : List TimeRange
  deriving DecidableEq

/-- The body of the `for` loop of `groupEntriesByText`: fold one entry
into the accumulated groups (a JS `Map` iterated in insertion order). -/
def textStep (now : Int) (acc : List TextGroup) (e : Entry) : List TextGroup :=
  if acc.any (fun g => g.key == textKey e) then
    acc.map (fun g =>
      if g.key == textKey e then
        { g with count := g.count + 1,
                 seconds := g.seconds + getEntryDurationUntilNow now e,
                 timeRanges := g.timeRanges ++ [rangeOf now e] }
      else g)
  else
    acc ++ [⟨textKey e, 1, getEntryDurationUntilNow now e, [rangeOf now e]⟩]

/-- The comparator `(a, b) => b.seconds - a.seconds` as an order. -/
def secondsDescT (a b : TextGroup) : Prop := b.seconds ≤ a.seconds

instance : DecidableRel secondsDescT := fun a b => Int.decLe b.seconds a.seconds

instance : IsTotal TextGroup secondsDescT := ⟨fun a b => le_total b.seconds a.seconds⟩

instance : IsTrans TextGroup secondsDescT := ⟨fun _ _ _ h1 h2 => le_trans h2 h1⟩

/-- `groupEntriesByText` from `src/commands/report.ts` (lines 65-98):
fold the entries through the Map in input order, then sort the groups by
descending `seconds`.  JS `Array.prototype.sort` is stable, so the stable
`List.insertionSort` realises the same output.  `now` is the timestamp
the function captures once at the start (`new Date().toISOString()`). -/
def groupEntriesByText (now : Int) (entries : List Entry) : List TextGroup :=
  List.insertionSort secondsDescT (entries.foldl (textStep now) [])

/-- Structured-field access `(e as Record<string, unknown>)[key]`: the
three canonical id fields; any other string reads `undefined`. -/
def fieldVal (e : Entry) : String → Option Int
  | "customersId" => some e.customersId
  | "projectsId" => e.projectsId
  | "servicesId" => e.servicesId
  | _ => none

/-- The group key computed by `groupEntries` in `src/commands/entries.ts`
(lines 336-343): text mode uses `e.text || "(no description)"`;
structured mode stringifies the field value, with `"(none)"` for a
null/missing value. -/
def groupValue (key : String) (e : Entry) : String :=
  if key = "text" then textKey e
  else
    match fieldVal e key with
    | some v => toString v
    | none => ("(none)")

/-- A `{key, count, seconds}` group from `src/commands/entries.ts`. -/
structure Group where
  key : String
  count : Nat
  seconds : Int
  deriving DecidableEq

/-- The body of the `for` loop of `groupEntries`. -/
def groupStep (now : Int) (key : String) (acc : List Group) (e : Entry) : List Group :=
  if acc.any (fun g => g.key == groupValue key e) then
    acc.map (fun g =>
      if g.key == groupValue key e then
        { g with count := g.count + 1,
                 seconds := g.seconds + getEntryDurationUntilNow now e }
      else g)
  else
    acc ++ [⟨groupValue key e, 1, getEntryDurationUntilNow now e⟩]

/-- The comparator `(a, b) => b.seconds - a.seconds` on plain groups. -/
def secondsDescG (a b : Group) : Prop := b.seconds ≤ a.seconds

instance : DecidableRel secondsDescG := fun a b => Int.decLe b.seconds a.seconds

instance : IsTotal Group secondsDescG := ⟨fun a b => le_total b.seconds a.seconds⟩

instance : IsTrans Group secondsDescG := ⟨fun _ _ _ h1 h2 => le_trans h2 h1⟩

/-- `groupEntries` from `src/commands/entries.ts` (lines 330-358).  `now`
is the clock of the SDK's `getEntryDurationUntilNow`. -/
def groupEntries (now : Int) (entries : List Entry) (key : String) : List Group :=
  List.insertionSort secondsDescG (entries.foldl (groupStep now key) [])

/-! ### First-occurrence key order and the canonical form of the fold -/

/-- The distinct values of a list in first-occurrence order — the key
order of a JS `Map` filled by iterating the list. -/
def dedupFirst : List String → List String
  | [] => []
  | k :: t => k :: (dedupFirst t).filter (fun j => j != k)

theorem mem_dedupFirst {k : String} : ∀ {xs : List String}, k ∈ dedupFirst xs ↔ k ∈ xs
  | [] => Iff.rfl
  | x :: t => by
    by_cases hx : k = x
    · subst hx
      simp [dedupFirst]
    · have ih : k ∈ dedupFirst t ↔ k ∈ t := mem_dedupFirst
      simp [dedupFirst, List.mem_filter, hx, ih]

theorem nodup_dedupFirst : ∀ xs : List String, (dedupFirst xs).Nodup
  | [] => List.nodup_nil
  | x :: t => by
    rw [dedupFirst, List.nodup_cons]
    refine ⟨fun hx => ?_, (nodup_dedupFirst t).filter _⟩
    have := (List.mem_filter.mp hx).2
    simp at this

theorem dedupFirst_append_singleton (x : String) :
    ∀ xs : List String, dedupFirst (xs ++ [x])
      = if x ∈ xs then dedupFirst xs else dedupFirst xs ++ [x]
  | [] => by simp [dedupFirst]
  | k :: t => by
    rw [List.cons_append, dedupFirst, dedupFirst_append_singleton x t, dedupFirst]
    by_cases hx : x ∈ t
    · simp [hx, List.mem_cons]
    · by_cases hxk : x = k
      · subst hxk
        simp [hx, List.filter_append]
      · have hne : x ≠ k := hxk
        simp [hx, hne, List.filter_append, Ne.symm hne]

/-- The aggregate of all entries with text key `k`, in input order. -/
def textAgg (now : Int) (l : List Entry) (k : String) : TextGroup :=
  ⟨k, (l.filter (fun e => textKey e == k)).length,
    ((l.filter (fun e => textKey e == k)).map (getEntryDurationUntilNow now)).sum,
    (l.filter (fun e => textKey e == k)).map (rangeOf now)⟩

/-- Canonical description of the Map contents after the fold: one
aggregate per distinct key, keys in first-occurrence order. -/
def textCanonical (now : Int) (l : List Entry) : List TextGroup :=
  (dedupFirst (l.map textKey)).map (textAgg now l)

theorem textCanonical_keys (now : Int) (l : List Entry) :
    (textCanonical now l).map (fun g => g.key) = dedupFirst (l.map textKey) := by
  rw [textCanonical, List.map_map]
  exact List.map_id _

theorem any_key_eq_text {gs : List TextGroup} {k : String} :
    (gs.any (fun g => g.key == k)) = true ↔ k ∈ gs.map (fun g => g.key) := by
  rw [List.any_eq_true]
  constructor
  · rintro ⟨g, hg, hk⟩
    exact List.mem_map.mpr ⟨g, hg, beq_iff_eq.mp hk⟩
  · intro hmem
    obtain ⟨g, hg, rfl⟩ := List.mem_map.mp hmem
    exact ⟨g, hg, beq_self_eq_true _⟩

theorem filter_textKey_nil {l : List Entry} {k : String} (h : k ∉ l.map textKey) :
    l.filter (fun e => textKey e == k) = [] := by
  rw [List.filter_eq_nil_iff]
  intro e he hp
  exact h (List.mem_map.mpr ⟨e, he, beq_iff_eq.mp hp⟩)

theorem textStep_canonical (now : Int) (l : List Entry) (e : Entry) :
    textStep now (textCanonical now l) e = textCanonical now (l ++ [e]) := by
  have hmapapp : (l ++ [e]).map textKey = l.map textKey ++ [textKey e] := by
    simp
  by_cases hk : textKey e ∈ l.map textKey
  · have hany : ((textCanonical now l).any (fun g => g.key == textKey e)) = true := by
      rw [any_key_eq_text, textCanonical_keys]
      exact mem_dedupFirst.mpr hk
    rw [textStep, if_pos hany, textCanonical, textCanonical, hmapapp,
      dedupFirst_append_singleton, if_pos hk, List.map_map]
    apply List.map_congr_left
    intro j hj
    by_cases hje : j = textKey e
    · subst hje
      simp [textAgg, Function.comp, List.filter_append, List.sum_append]
    · have h1 : (textKey e == j) = false := by
        simp [beq_eq_false_iff_ne]
        exact fun h => hje h.symm
      have h2 : (j == textKey e) = false := by
        simp [beq_eq_false_iff_ne, hje]
      simp [textAgg, Function.comp, List.filter_append, h1, h2]
  · have hany : ((textCanonical now l).any (fun g => g.key == textKey e)) = false := by
      rw [← Bool.not_eq_true, any_key_eq_text, textCanonical_keys]
      intro hmem
      exact hk (mem_dedupFirst.mp hmem)
    rw [textStep, if_neg (by simp [hany]), textCanonical, textCanonical, hmapapp,
      dedupFirst_append_singleton, if_neg hk, List.map_append]
    congr 1
    · apply List.map_congr_left
      intro j hj
      have hje : j ≠ textKey e := fun h => hk (h ▸ mem_dedupFirst.mp hj)
      have h1 : (textKey e == j) = false := by
        simp [beq_eq_false_iff_ne]
        exact fun h => hje h.symm
      simp [textAgg, List.filter_append, h1]
    · have hnil : l.filter (fun e' => textKey e' == textKey e) = [] :=
        filter_textKey_nil hk
      simp [textAgg, List.filter_append, hnil]

theorem textBuild_canonical (now : Int) (l : List Entry) :
    l.foldl (textStep now) [] = textCanonical now l := by
  induction l using List.reverseRecOn with
  | nil => rfl
  | append_singleton l e ih =>
      rw [List.foldl_append, List.foldl_cons, List.foldl_nil, ih, textStep_canonical]

/-! ### Partition sums: grouping drops and duplicates nothing -/

/-- Pulling one element out of a sum over a duplicate-free list. -/
theorem sum_pull {M : Type} [AddCommMonoid M] (S : String → M) (x : String) :
    ∀ {ks : List String}, ks.Nodup → x ∈ ks →
      (ks.map S).sum = S x + ((ks.filter (fun j => j != x)).map S).sum := by
  intro ks
  induction ks with
  | nil => intro _ h; cases h
  | cons k t ih =>
      intro hnd hmem
      rw [List.nodup_cons] at hnd
      rcases List.mem_cons.mp hmem with rfl | hxt
      · have hfil : t.filter (fun j => j != x) = t :=
          List.filter_eq_self.mpr (fun j hj => by
            simp [bne_iff_ne]
            exact fun h => hnd.1 (h ▸ hj))
        simp [List.filter_cons, hfil]
      · have hkx : (k != x) = true := by
          simp [bne_iff_ne]
          exact fun h => hnd.1 (h ▸ hxt)
        rw [List.map_cons, List.sum_cons, ih hnd.2 hxt, List.filter_cons, if_pos hkx,
          List.map_cons, List.sum_cons]
        rw [← add_assoc, ← add_assoc, add_comm (S k) (S x)]

/-- Summing an additive measure group-by-group over the first-occurrence
partition gives the same total as summing it over the whole list. -/
theorem partition_sum {α M : Type} [AddCommMonoid M] (key : α → String) (f : α → M) :
    ∀ l : List α,
      ((dedupFirst (l.map key)).map
        (fun k => ((l.filter (fun a => key a == k)).map f).sum)).sum
      = (l.map f).sum := by
  intro l
  induction l with
  | nil => simp [dedupFirst]
  | cons a t ih =>
      have hS : ∀ k, (((a :: t).filter (fun x => key x == k)).map f).sum
          = (if (key a == k) = true then f a else 0)
            + ((t.filter (fun x => key x == k)).map f).sum := by
        intro k
        rw [List.filter_cons]
        by_cases h : (key a == k) = true
        · simp [h]
        · simp [h]
      have htail : ((dedupFirst (t.map key)).filter (fun j => j != key a)).map
            (fun k => (((a :: t).filter (fun x => key x == k)).map f).sum)
          = ((dedupFirst (t.map key)).filter (fun j => j != key a)).map
            (fun k => ((t.filter (fun x => key x == k)).map f).sum) := by
        apply List.map_congr_left
        intro j hj
        have h2 := (List.mem_filter.mp hj).2
        rw [bne_iff_ne] at h2
        have hja : (key a == j) = false := by
          rw [beq_eq_false_iff_ne]
          exact fun h => h2 h.symm
        rw [hS, hja]
        simp
      rw [List.map_cons, dedupFirst, List.map_cons, List.sum_cons, htail, hS,
        beq_self_eq_true, if_pos rfl, List.map_cons, List.sum_cons]
      by_cases hk : key a ∈ t.map key
      · have hpull := sum_pull (fun k => ((t.filter (fun x => key x == k)).map f).sum)
          (key a) (nodup_dedupFirst (t.map key)) (mem_dedupFirst.mpr hk)
        rw [ih] at hpull
        rw [add_assoc, ← hpull]
      · have hnil : t.filter (fun x => key x == key a) = [] := by
          rw [List.filter_eq_nil_iff]
          intro x hx hp
          exact hk (List.mem_map.mpr ⟨x, hx, beq_iff_eq.mp hp⟩)
        have hfil : (dedupFirst (t.map key)).filter (fun j => j != key a)
            = dedupFirst (t.map key) :=
          List.filter_eq_self.mpr (fun j hj => by
            rw [bne_iff_ne]
            exact fun h => hk (h ▸ mem_dedupFirst.mp hj))
        rw [hnil, hfil, ih]
        simp

/-- The aggregate of all entries with `groupValue key` equal to `k`. -/
def groupAgg (now : Int) (key : String) (l : List Entry) (k : String) : Group :=
  ⟨k, (l.filter (fun e => groupValue key e == k)).length,
    ((l.filter (fun e => groupValue key e == k)).map (getEntryDurationUntilNow now)).sum⟩

/-- Canonical description of `groupEntries`' Map contents. -/
def groupCanonical (now : Int) (key : String) (l : List Entry) : List Group :=
  (dedupFirst (l.map (groupValue key))).map (groupAgg now key l)

theorem groupCanonical_keys (now : Int) (key : String) (l : List Entry) :
    (groupCanonical now key l).map (fun g => g.key) = dedupFirst (l.map (groupValue key)) := by
  rw [groupCanonical, List.map_map]
  exact List.map_id _

theorem any_key_eq_group {gs : List Group} {k : String} :
    (gs.any (fun g => g.key == k)) = true ↔ k ∈ gs.map (fun g => g.key) := by
  rw [List.any_eq_true]
  constructor
  · rintro ⟨g, hg, hk⟩
    exact List.mem_map.mpr ⟨g, hg, beq_iff_eq.mp hk⟩
  · intro hmem
    obtain ⟨g, hg, rfl⟩ := List.mem_map.mp hmem
    exact ⟨g, hg, beq_self_eq_true _⟩

theorem groupStep_canonical (now : Int) (key : String) (l : List Entry) (e : Entry) :
    groupStep now key (groupCanonical now key l) e = groupCanonical now key (l ++ [e]) := by
  have hmapapp : (l ++ [e]).map (groupValue key)
      = l.map (groupValue key) ++ [groupValue key e] := by
    simp
  by_cases hk : groupValue key e ∈ l.map (groupValue key)
  · have hany : ((groupCanonical now key l).any (fun g => g.key == groupValue key e)) = true := by
      rw [any_key_eq_group, groupCanonical_keys]
      exact mem_dedupFirst.mpr hk
    rw [groupStep, if_pos hany, groupCanonical, groupCanonical, hmapapp,
      dedupFirst_append_singleton, if_pos hk, List.map_map]
    apply List.map_congr_left
    intro j hj
    by_cases hje : j = groupValue key e
    · subst hje
      simp [groupAgg, Function.comp, List.filter_append, List.sum_append]
    · have h1 : (groupValue key e == j) = false := by
        rw [beq_eq_false_iff_ne]
        exact fun h => hje h.symm
      have h2 : (j == groupValue key e) = false := by
        rw [beq_eq_false_iff_ne]
        exact hje
      simp [groupAgg, Function.comp, List.filter_append, h1, h2]
  · have hany : ((groupCanonical now key l).any (fun g => g.key == groupValue key e)) = false := by
      rw [← Bool.not_eq_true, any_key_eq_group, groupCanonical_keys]
      intro hmem
      exact hk (mem_dedupFirst.mp hmem)
    rw [groupStep, if_neg (by simp [hany]), groupCanonical, groupCanonical, hmapapp,
      dedupFirst_append_singleton, if_neg hk, List.map_append]
    congr 1
    · apply List.map_congr_left
      intro j hj
      have hje : j ≠ groupValue key e := fun h => hk (h ▸ mem_dedupFirst.mp hj)
      have h1 : (groupValue key e == j) = false := by
        rw [beq_eq_false_iff_ne]
        exact fun h => hje h.symm
      simp [groupAgg, List.filter_append, h1]
    · have hnil : l.filter (fun x => groupValue key x == groupValue key e) = [] := by
        rw [List.filter_eq_nil_iff]
        intro x hx hp
        exact hk (List.mem_map.mpr ⟨x, hx, beq_iff_eq.mp hp⟩)
      simp [groupAgg, List.filter_append, hnil]

theorem groupBuild_canonical (now : Int) (key : String) (l : List Entry) :
    l.foldl (groupStep now key) [] = groupCanonical now key l := by
  induction l using List.reverseRecOn with
  | nil => rfl
  | append_singleton l e ih =>
      rw [List.foldl_append, List.foldl_cons, List.foldl_nil, ih, groupStep_canonical]

/-! ### Stability of the descending sort -/

/-- Inserting into a descending-ordered list passes only strictly larger
elements, so each seconds-class of the filter gains the new element at the
front (if it belongs to the class) and is otherwise untouched. -/
theorem filter_orderedInsert {β : Type} (r : β → β → Prop) [DecidableRel r]
    (sec : β → Int) (hr : ∀ a b, r a b ↔ sec b ≤ sec a) (s : Int) (x : β) :
    ∀ l : List β,
      (List.orderedInsert r x l).filter (fun g => sec g == s)
        = if (sec x == s) = true then x :: l.filter (fun g => sec g == s)
          else l.filter (fun g => sec g == s)
  | [] => by
      rw [List.orderedInsert]
      by_cases hx : (sec x == s) = true <;> simp [List.filter, hx]
  | h :: t => by
      rw [List.orderedInsert]
      by_cases hrel : r x h
      · rw [if_pos hrel, List.filter_cons, List.filter_cons]
      · have hgt : sec x < sec h := by
          have h1 : ¬ sec h ≤ sec x := fun hc => hrel ((hr x h).mpr hc)
          omega
        rw [if_neg hrel, List.filter_cons, filter_orderedInsert r sec hr s x t,
          List.filter_cons]
        by_cases hx : (sec x == s) = true
        · have hh : (sec h == s) = false := by
            rw [beq_eq_false_iff_ne]
            have := beq_iff_eq.mp hx
            omega
          simp [hx, hh]
        · simp [hx]

/-- The stable insertion sort leaves every seconds-class of the filter in
its original (first-occurrence) order. -/
theorem filter_insertionSort {β : Type} (r : β → β → Prop) [DecidableRel r]
    (sec : β → Int) (hr : ∀ a b, r a b ↔ sec b ≤ sec a) (s : Int) :
    ∀ l : List β,
      (List.insertionSort r l).filter (fun g => sec g == s)
        = l.filter (fun g => sec g == s)
  | [] => rfl
  | h :: t => by
      rw [List.insertionSort, filter_orderedInsert r sec hr s h (List.insertionSort r t),
        filter_insertionSort r sec hr s t, List.filter_cons]

/-- If every seconds-class of a list is pairwise related, the list is
pairwise related on ties. -/
theorem pairwise_ties {β : Type} (sec : β → Int) (R : β → β → Prop) :
    ∀ l : List β, (∀ s : Int, (l.filter (fun g => sec g == s)).Pairwise R) →
      l.Pairwise (fun a b => sec a = sec b → R a b)
  | [], _ => List.Pairwise.nil
  | x :: t, H => by
      rw [List.pairwise_cons]
      constructor
      · intro y hy hsec
        have h1 := H (sec x)
        rw [List.filter_cons, if_pos (beq_self_eq_true _)] at h1
        rw [List.pairwise_cons] at h1
        apply h1.1
        rw [List.mem_filter]
        exact ⟨hy, by rw [beq_iff_eq]; exact hsec.symm⟩
      · apply pairwise_ties sec R t
        intro s
        have h1 := H s
        rw [List.filter_cons] at h1
        by_cases hx : (sec x == s) = true
        · rw [if_pos hx] at h1
          exact (List.pairwise_cons.mp h1).2
        · rw [if_neg hx] at h1
          exact h1

/-- `dedupFirst` lists keys in strictly increasing first-occurrence
position. -/
theorem dedupFirst_pairwise_indexOf : ∀ xs : List String,
    (dedupFirst xs).Pairwise (fun a b => xs.indexOf a < xs.indexOf b)
  | [] => List.Pairwise.nil
  | x :: t => by
      rw [dedupFirst, List.pairwise_cons]
      constructor
      · intro b hb
        have hbx : b ≠ x := by
          have := (List.mem_filter.mp hb).2
          rwa [bne_iff_ne] at this
        rw [List.indexOf_cons_self, List.indexOf_cons_ne _ (Ne.symm hbx)]
        exact Nat.succ_pos _
      · have ih := dedupFirst_pairwise_indexOf t
        have ih2 : ((dedupFirst t).filter (fun j => j != x)).Pairwise
            (fun a b => t.indexOf a < t.indexOf b) :=
          List.Pairwise.sublist (List.filter_sublist _) ih
        refine List.Pairwise.imp_of_mem ?_ ih2
        intro a b ha hb hab
        have hax : a ≠ x := by
          have := (List.mem_filter.mp ha).2
          rwa [bne_iff_ne] at this
        have hbx : b ≠ x := by
          have := (List.mem_filter.mp hb).2
          rwa [bne_iff_ne] at this
        rw [List.indexOf_cons_ne _ (Ne.symm hax), List.indexOf_cons_ne _ (Ne.symm hbx)]
        exact Nat.succ_lt_succ hab

/-! ### Conservation of counts and seconds -/

theorem sum_ones {α : Type} : ∀ l : List α, (l.map (fun _ => (1 : ℕ))).sum = l.length
  | [] => rfl
  | a :: t => by
      rw [List.map_cons, List.sum_cons, sum_ones t, List.length_cons]
      omega

theorem perm_text (now : Int) (l : List Entry) :
    List.Perm (groupEntriesByText now l) (textCanonical now l) := by
  rw [groupEntriesByText, textBuild_canonical]
  exact List.perm_insertionSort _ _

theorem perm_group (now : Int) (l : List Entry) (key : String) :
    List.Perm (groupEntries now l key) (groupCanonical now key l) := by
  rw [groupEntries, groupBuild_canonical]
  exact List.perm_insertionSort _ _

theorem textCanonical_counts (now : Int) (l : List Entry) :
    ((textCanonical now l).map (fun g => g.count)).sum = l.length := by
  have h := partition_sum textKey (fun _ => (1 : ℕ)) l
  rw [sum_ones] at h
  rw [textCanonical, List.map_map]
  rw [show ((fun g => g.count) ∘ textAgg now l)
      = (fun k => (l.filter (fun e => textKey e == k)).length) from rfl]
  rw [← h]
  apply congrArg
  apply List.map_congr_left
  intro j _
  exact (sum_ones _).symm

theorem textCanonical_seconds (now : Int) (l : List Entry) :
    ((textCanonical now l).map (fun g => g.seconds)).sum
      = (l.map (getEntryDurationUntilNow now)).sum := by
  have h := partition_sum textKey (getEntryDurationUntilNow now) l
  rw [textCanonical, List.map_map]
  exact h

theorem groupCanonical_counts (now : Int) (key : String) (l : List Entry) :
    ((groupCanonical now key l).map (fun g => g.count)).sum = l.length := by
  have h := partition_sum (groupValue key) (fun _ => (1 : ℕ)) l
  rw [sum_ones] at h
  rw [groupCanonical, List.map_map]
  rw [show ((fun g => g.count) ∘ groupAgg now key l)
      = (fun k => (l.filter (fun e => groupValue key e == k)).length) from rfl]
  rw [← h]
  apply congrArg
  apply List.map_congr_left
  intro j _
  exact (sum_ones _).symm

theorem groupCanonical_seconds (now : Int) (key : String) (l : List Entry) :
    ((groupCanonical now key l).map (fun g => g.seconds)).sum
      = (l.map (getEntryDurationUntilNow now)).sum := by
  have h := partition_sum (groupValue key) (getEntryDurationUntilNow now) l
  rw [groupCanonical, List.map_map]
  exact h

/-- C1: both grouping functions conserve the input exactly — the groups'
counts sum to the number of input entries and the groups' seconds sum to
the total of per-entry computed durations (no entry dropped, none
double-counted), for every grouping key; an empty input yields an empty
group list. -/
theorem grouping_conserves_totals (now : Int) (l : List Entry) (key : String) :
    ((groupEntriesByText now l).map (fun g => g.count)).sum = l.length ∧
    ((groupEntriesByText now l).map (fun g => g.seconds)).sum
      = (l.map (getEntryDurationUntilNow now)).sum ∧
    groupEntriesByText now [] = [] ∧
    ((groupEntries now l key).map (fun g => g.count)).sum = l.length ∧
    ((groupEntries now l key).map (fun g => g.seconds)).sum
      = (l.map (getEntryDurationUntilNow now)).sum ∧
    groupEntries now [] key = [] := by
  refine ⟨?_, ?_, rfl, ?_, ?_, rfl⟩
  · rw [((perm_text now l).map (fun g => g.count)).sum_eq, textCanonical_counts]
  · rw [((perm_text now l).map (fun g => g.seconds)).sum_eq, textCanonical_seconds]
  · rw [((perm_group now l key).map (fun g => g.count)).sum_eq, groupCanonical_counts]
  · rw [((perm_group now l key).map (fun g => g.seconds)).sum_eq, groupCanonical_seconds]

/-! ### Sort order of the returned groups -/

theorem text_ties_pairwise (now : Int) (l : List Entry) :
    (groupEntriesByText now l).Pairwise (fun a b => a.seconds = b.seconds →
      (l.map textKey).indexOf a.key < (l.map textKey).indexOf b.key) := by
  refine pairwise_ties (fun g => g.seconds)
    (fun a b => (l.map textKey).indexOf a.key < (l.map textKey).indexOf b.key)
    (groupEntriesByText now l) ?_
  intro s
  rw [groupEntriesByText,
    filter_insertionSort secondsDescT (fun g => g.seconds) (fun _ _ => Iff.rfl) s,
    textBuild_canonical]
  have hp : (textCanonical now l).Pairwise
      (fun a b => (l.map textKey).indexOf a.key < (l.map textKey).indexOf b.key) := by
    rw [textCanonical, List.pairwise_map]
    exact dedupFirst_pairwise_indexOf (l.map textKey)
  exact List.Pairwise.sublist (List.filter_sublist _) hp

theorem group_ties_pairwise (now : Int) (l : List Entry) (key : String) :
    (groupEntries now l key).Pairwise (fun a b => a.seconds = b.seconds →
      (l.map (groupValue key)).indexOf a.key < (l.map (groupValue key)).indexOf b.key) := by
  refine pairwise_ties (fun g => g.seconds)
    (fun a b => (l.map (groupValue key)).indexOf a.key
      < (l.map (groupValue key)).indexOf b.key)
    (groupEntries now l key) ?_
  intro s
  rw [groupEntries,
    filter_insertionSort secondsDescG (fun g => g.seconds) (fun _ _ => Iff.rfl) s,
    groupBuild_canonical]
  have hp : (groupCanonical now key l).Pairwise
      (fun a b => (l.map (groupValue key)).indexOf a.key
        < (l.map (groupValue key)).indexOf b.key) := by
    rw [groupCanonical, List.pairwise_map]
    exact dedupFirst_pairwise_indexOf (l.map (groupValue key))
  exact List.Pairwise.sublist (List.filter_sublist _) hp

/-- C5: both grouping functions return their groups sorted by descending
summed seconds (every adjacent pair satisfies
`groups[i].seconds ≥ groups[i+1].seconds`), and groups with equal seconds
appear in first-occurrence order of their keys in the input (the stable
tie-break).  The output is a pure function of the input, hence
deterministic for identical input. -/
theorem groups_sorted_desc_stable (now : Int) (l : List Entry) (key : String) :
    List.Chain' (fun a b => b.seconds ≤ a.seconds) (groupEntriesByText now l) ∧
    (groupEntriesByText now l).Pairwise (fun a b => a.seconds = b.seconds →
      (l.map textKey).indexOf a.key < (l.map textKey).indexOf b.key) ∧
    List.Chain' (fun a b => b.seconds ≤ a.seconds) (groupEntries now l key) ∧
    (groupEntries now l key).Pairwise (fun a b => a.seconds = b.seconds →
      (l.map (groupValue key)).indexOf a.key < (l.map (groupValue key)).indexOf b.key) := by
  refine ⟨?_, text_ties_pairwise now l, ?_, group_ties_pairwise now l key⟩
  · exact List.Pairwise.chain' (List.sorted_insertionSort secondsDescT _)
  · exact List.Pairwise.chain' (List.sorted_insertionSort secondsDescG _)

/-- Witness for `groups_sorted_desc_stable` at a concrete input (the
scenario list of spec §8, seconds 3600/5400/3600/1800). -/
theorem groups_sorted_desc_stable_witness :
    List.Chain' (fun a b => b.seconds ≤ a.seconds)
      (groupEntriesByText 100000
        [⟨0, some 3600, some 3600, some ("A"), 1, none, none⟩,
         ⟨4000, some 9400, some 5400, some ("A"), 1, none, none⟩,
         ⟨10000, some 13600, some 3600, some ("B"), 1, none, none⟩,
         ⟨14000, some 15800, some 1800, none, 1, none, none⟩]) :=
  (groups_sorted_desc_stable 100000
    [⟨0, some 3600, some 3600, some ("A"), 1, none, none⟩,
     ⟨4000, some 9400, some 5400, some ("A"), 1, none, none⟩,
     ⟨10000, some 13600, some 3600, some ("B"), 1, none, none⟩,
     ⟨14000, some 15800, some 1800, none, 1, none, none⟩] "text").1

/-! ### Running entries and the shared `now` -/

/-- C4: within one `groupEntriesByText` call the single `now` parameter —
captured once at the start of the call — serves as the `until` of every
running entry's recorded time range and as the substitute end instant of
its duration, and a running entry started before `now` has strictly
positive duration.  (`getEntryDurationUntilNow` is spec-modelled: the SDK
body is outside this repository.) -/
theorem running_entry_shares_now (now : Int) (l : List Entry) (e : Entry)
    (he : e ∈ l) (hrun : e.timeUntil = none) :
    (∃ g, g ∈ groupEntriesByText now l ∧ g.key = textKey e ∧
        (⟨e.timeSince, now⟩ : TimeRange) ∈ g.timeRanges) ∧
    (e.timeSince < now → 0 < getEntryDurationUntilNow now e) := by
  constructor
  · refine ⟨textAgg now l (textKey e), ?_, rfl, ?_⟩
    · have hmem : textAgg now l (textKey e) ∈ textCanonical now l :=
        List.mem_map.mpr ⟨textKey e,
          mem_dedupFirst.mpr (List.mem_map.mpr ⟨e, he, rfl⟩), rfl⟩
      exact (perm_text now l).mem_iff.mpr hmem
    · show (⟨e.timeSince, now⟩ : TimeRange)
        ∈ (l.filter (fun x => textKey x == textKey e)).map (rangeOf now)
      refine List.mem_map.mpr ⟨e, List.mem_filter.mpr ⟨he, beq_self_eq_true _⟩, ?_⟩
      rw [rangeOf, hrun]
      rfl
  · intro hlt
    simp only [getEntryDurationUntilNow, hrun]
    omega

/-- First running entry of the C4 witness scenario. -/
def runningA : Entry :=
  ⟨10, none, none, some ("draft report"), 1, none, none⟩

/-- Second running entry of the C4 witness scenario. -/
def runningB : Entry :=
  ⟨40, none, none, some ("standup"), 1, none, none⟩

/-- Witness for `running_entry_shares_now`: two simultaneously running
entries aggregated against the one shared timestamp 100. -/
theorem running_entry_shares_now_witness :
    ((∃ g, g ∈ groupEntriesByText 100 [runningA, runningB] ∧ g.key = textKey runningA ∧
        (⟨runningA.timeSince, 100⟩ : TimeRange) ∈ g.timeRanges) ∧
      (runningA.timeSince < 100 → 0 < getEntryDurationUntilNow 100 runningA)) ∧
    0 < getEntryDurationUntilNow 100 runningA ∧ 0 < getEntryDurationUntilNow 100 runningB := by
  refine ⟨running_entry_shares_now 100 [runningA, runningB] runningA ?_ rfl, ?_, ?_⟩
  · exact List.mem_cons_self runningA [runningB]
  · exact (running_entry_shares_now 100 [runningA, runningB] runningA
      (List.mem_cons_self _ _) rfl).2 (by decide)
  · exact (running_entry_shares_now 100 [runningA, runningB] runningB
      (by simp) rfl).2 (by decide)

/-! ### Sentinel keys and single-group merging -/

theorem text_keys_nodup (now : Int) (l : List Entry) :
    ((groupEntriesByText now l).map (fun g => g.key)).Nodup := by
  rw [((perm_text now l).map (fun g => g.key)).nodup_iff, textCanonical_keys]
  exact nodup_dedupFirst _

theorem group_keys_nodup (now : Int) (l : List Entry) (key : String) :
    ((groupEntries now l key).map (fun g => g.key)).Nodup := by
  rw [((perm_group now l key).map (fun g => g.key)).nodup_iff, groupCanonical_keys]
  exact nodup_dedupFirst _

theorem text_group_count (now : Int) (l : List Entry) :
    ∀ g ∈ groupEntriesByText now l,
      g.count = (l.filter (fun x => textKey x == g.key)).length := by
  intro g hg
  obtain ⟨k, _, rfl⟩ := List.mem_map.mp ((perm_text now l).mem_iff.mp hg)
  rfl

theorem group_group_count (now : Int) (l : List Entry) (key : String) :
    ∀ g ∈ groupEntries now l key,
      g.count = (l.filter (fun x => groupValue key x == g.key)).length := by
  intro g hg
  obtain ⟨k, _, rfl⟩ := List.mem_map.mp ((perm_group now l key).mem_iff.mp hg)
  rfl

/-- C6: in text mode every entry with a null or empty description gets the
sentinel key "(no description)"; group keys are duplicate-free, and each
group's count is exactly the number of input entries assigned its key, so
all sentinel entries merge into the single sentinel group.  In structured
mode a null/missing field value maps to the sentinel "(none)" and a
non-null value is stringified, with the same merging guarantees. -/
theorem sentinel_keys_merge (now : Int) (l : List Entry) (key : String)
    (e : Entry) (v : Int) :
    ((e.text = none ∨ e.text = some "") → textKey e = "(no description)") ∧
    ((groupEntriesByText now l).map (fun g => g.key)).Nodup ∧
    (∀ g ∈ groupEntriesByText now l,
      g.count = (l.filter (fun x => textKey x == g.key)).length) ∧
    (key ≠ "text" → fieldVal e key = none → groupValue key e = "(none)") ∧
    (key ≠ "text" → fieldVal e key = some v → groupValue key e = toString v) ∧
    ((groupEntries now l key).map (fun g => g.key)).Nodup ∧
    (∀ g ∈ groupEntries now l key,
      g.count = (l.filter (fun x => groupValue key x == g.key)).length) := by
  refine ⟨?_, text_keys_nodup now l, text_group_count now l, ?_, ?_,
    group_keys_nodup now l key, group_group_count now l key⟩
  · rintro (hnone | hempty)
    · rw [textKey, hnone]
    · rw [textKey, hempty]
      rfl
  · intro hkey hnone
    rw [groupValue, if_neg hkey, hnone]
  · intro hkey hsome
    rw [groupValue, if_neg hkey, hsome]

/-- Entry with a null description and a null project used by witnesses. -/
def nullishEntry : Entry :=
  ⟨0, some 1800, some 1800, none, 3, none, none⟩

/-- Entry with an empty-string description used by witnesses. -/
def emptyTextEntry : Entry :=
  ⟨2000, some 5600, some 3600, some "", 3, some 7, none⟩

/-- Witness for `sentinel_keys_merge`: null and empty descriptions map to
"(no description)", a null `projectsId` maps to "(none)", a present one is
stringified. -/
theorem sentinel_keys_merge_witness :
    textKey nullishEntry = "(no description)" ∧
    textKey emptyTextEntry = "(no description)" ∧
    groupValue "projectsId" nullishEntry = "(none)" ∧
    groupValue "projectsId" emptyTextEntry = toString (7 : Int) := by
  refine ⟨(sentinel_keys_merge 0 [] "projectsId" nullishEntry 0).1 (Or.inl rfl),
    (sentinel_keys_merge 0 [] "projectsId" emptyTextEntry 0).1 (Or.inr rfl),
    (sentinel_keys_merge 0 [] "projectsId" nullishEntry 0).2.2.2.1 (by decide) rfl,
    (sentinel_keys_merge 0 [] "projectsId" emptyTextEntry 7).2.2.2.2.1 (by decide) rfl⟩

/-! ### Group-by alias resolution -/

/-- Equality on `Except` is decidable when it is on both components. -/
instance {ε α : Type} [DecidableEq ε] [DecidableEq α] : DecidableEq (Except ε α) := fun a b =>
  match a, b with
  | .error x, .error y =>
      if h : x = y then .isTrue (h ▸ rfl)
      else .isFalse (fun hc => h (by injection hc))
  | .error _, .ok _ => .isFalse (fun hc => Except.noConfusion hc)
  | .ok _, .error _ => .isFalse (fun hc => Except.noConfusion hc)
  | .ok x, .ok y =>
      if h : x = y then .isTrue (h ▸ rfl)
      else .isFalse (fun hc => h (by injection hc))

/-- What reading a property of a plain JS object literal can produce: a
string stored in the literal itself (`own`), a truthy non-string value
inherited from `Object.prototype` (a function, or the prototype object
for the `__proto__` accessor), or `undefined`. -/
inductive JsLookup where
  | own (s : String)
  | inherited
  | absent
  deriving DecidableEq

/-- The property names every plain object literal inherits from
`Object.prototype`; reading any of them on the alias objects yields a
truthy non-string value, not `undefined`. -/
def objectPrototypeProps : List String :=
  ["constructor", "hasOwnProperty", "isPrototypeOf", "propertyIsEnumerable",
   "toLocaleString", "toString", "valueOf", "__proto__",
   "__defineGetter__", "__defineSetter__", "__lookupGetter__", "__lookupSetter__"]

/-- The lookup `GROUP_ALIASES[k]` from `src/commands/report.ts`
(lines 33-45): the literal's own keys first, then the `Object.prototype`
chain behind them. -/
def GROUP_ALIASES : String → JsLookup
  | "customer" => .own ("customers_id")
  | "customers" => .own ("customers_id")
  | "customers_id" => .own ("customers_id")
  | "project" => .own ("projects_id")
  | "projects" => .own ("projects_id")
  | "projects_id" => .own ("projects_id")
  | "service" => .own ("services_id")
  | "services" => .own ("services_id")
  | "services_id" => .own ("services_id")
  | "text" => .own ("text")
  | "description" => .own ("text")
  | k => if k ∈ objectPrototypeProps then .inherited else .absent

/-- JS `input.toLowerCase()` on the char list (extensionally the same as
`String.toLower`, whose position-based recursion the kernel cannot
evaluate). -/
def jsToLower (s : String) : String :=
  String.mk (s.data.map Char.toLower)

/-- What a resolver returns on success: the string its TS signature
promises, or the truthy non-string prototype value that passed the
`if (!resolved)` guard and is handed to the caller as the group field. -/
inductive ResolvedKey where
  | str (s : String)
  | protoJunk
  deriving DecidableEq

/-- `resolveReportGroupKey` from `src/commands/report.ts` (lines 47-56):
`if (!resolved) throw` rejects only falsy lookups, so an inherited
`Object.prototype` value passes the guard and is returned. -/
def resolveReportGroupKey (input : String) : Except CliError ResolvedKey :=
  match GROUP_ALIASES (jsToLower input) with
  | .own r => .ok (.str r)
  | .inherited => .ok .protoJunk
  | .absent => .error ⟨"Unknown group field: \"" ++ input
      ++ "\". Valid options: customer, project, service, text", invalidArgsExit, none⟩

/-- The lookup `aliases[k]` inside `resolveGroupKey` from
`src/commands/entries.ts` (lines 306-319), with the same
`Object.prototype` chain. -/
def entriesAliases : String → JsLookup
  | "customer" => .own ("customersId")
  | "customers" => .own ("customersId")
  | "customers_id" => .own ("customersId")
  | "project" => .own ("projectsId")
  | "projects" => .own ("projectsId")
  | "projects_id" => .own ("projectsId")
  | "service" => .own ("servicesId")
  | "services" => .own ("servicesId")
  | "services_id" => .own ("servicesId")
  | "text" => .own ("text")
  | "description" => .own ("text")
  | k => if k ∈ objectPrototypeProps then .inherited else .absent

/-- `resolveGroupKey` from `src/commands/entries.ts` (lines 306-328),
with the same truthiness-only guard. -/
def resolveGroupKey (input : String) : Except CliError ResolvedKey :=
  match entriesAliases (jsToLower input) with
  | .own r => .ok (.str r)
  | .inherited => .ok .protoJunk
  | .absent => .error ⟨"Unknown group field: \"" ++ input
      ++ "\". Valid options: customer, project, service, text", invalidArgsExit, none⟩

/-- C8 (code bug): resolution is total on the accepted alias set — every
alias of a field resolves to that field's one canonical key in both
resolvers, and a string outside both the table and the prototype chain
(e.g. "billable") fails closed with the enumerating invalid-argument
error — but it does NOT fail closed on every string outside the alias
table: "constructor" and "__proto__" (and any casing of them, via
`toLowerCase`) hit truthy values inherited from `Object.prototype`, pass
the `if (!resolved)` guard, and are returned as the group field, after
which the command proceeds to the remote call with that junk grouping. -/
theorem alias_resolution_fails_open :
    (resolveReportGroupKey "customer" = .ok (.str ("customers_id")) ∧
     resolveReportGroupKey "customers" = .ok (.str ("customers_id")) ∧
     resolveReportGroupKey "customers_id" = .ok (.str ("customers_id")) ∧
     resolveReportGroupKey "project" = .ok (.str ("projects_id")) ∧
     resolveReportGroupKey "projects" = .ok (.str ("projects_id")) ∧
     resolveReportGroupKey "projects_id" = .ok (.str ("projects_id")) ∧
     resolveReportGroupKey "service" = .ok (.str ("services_id")) ∧
     resolveReportGroupKey "services" = .ok (.str ("services_id")) ∧
     resolveReportGroupKey "services_id" = .ok (.str ("services_id")) ∧
     resolveReportGroupKey "text" = .ok (.str ("text")) ∧
     resolveReportGroupKey "description" = .ok (.str ("text"))) ∧
    (resolveGroupKey "customer" = .ok (.str ("customersId")) ∧
     resolveGroupKey "customers" = .ok (.str ("customersId")) ∧
     resolveGroupKey "customers_id" = .ok (.str ("customersId")) ∧
     resolveGroupKey "project" = .ok (.str ("projectsId")) ∧
     resolveGroupKey "projects" = .ok (.str ("projectsId")) ∧
     resolveGroupKey "projects_id" = .ok (.str ("projectsId")) ∧
     resolveGroupKey "service" = .ok (.str ("servicesId")) ∧
     resolveGroupKey "services" = .ok (.str ("servicesId")) ∧
     resolveGroupKey "services_id" = .ok (.str ("servicesId")) ∧
     resolveGroupKey "text" = .ok (.str ("text")) ∧
     resolveGroupKey "description" = .ok (.str ("text"))) ∧
    (resolveReportGroupKey "billable"
        = .error ⟨"Unknown group field: \"billable\". Valid options: customer, project, service, text", invalidArgsExit, none⟩ ∧
     resolveGroupKey "billable"
        = .error ⟨"Unknown group field: \"billable\". Valid options: customer, project, service, text", invalidArgsExit, none⟩) ∧
    (resolveReportGroupKey "constructor" = .ok .protoJunk ∧
     resolveGroupKey "constructor" = .ok .protoJunk ∧
     resolveReportGroupKey "__proto__" = .ok .protoJunk ∧
     resolveGroupKey "__proto__" = .ok .protoJunk ∧
     resolveReportGroupKey "Constructor" = .ok .protoJunk) := by
  refine ⟨?_, ?_, ?_, ?_⟩ <;> decide

/-! ### Structured-field report totals -/

/-- A `{name?, group?, duration?}` record of the remote `getEntryGroups`
aggregate response — the fields `runReport` reads. -/
structure ApiGroup where
  name : Option String := none
  group : Option String := none
  duration : Option Int := none
  deriving DecidableEq

/-- The `totalSeconds` accumulation of the structured path of `runReport`
(`src/commands/report.ts` line 201):
`groups.reduce((sum, g) => sum + (g.duration ?? 0), 0)`. -/
def runReportTotalSeconds (groups : List ApiGroup) : Int :=
  groups.foldl (fun sum g => sum + g.duration.getD 0) 0

/-- JS `a || b` on an optional string: null, undefined and the empty
string all fall through to the default. -/
def jsOrStr (v : Option String) (d : String) : String :=
  match v with
  | some s => if s = "" then d else s
  | none => d

/-- The table row built for each remote group in human mode
(`src/commands/report.ts` lines 225-229): the displayed name
`g.name || g.group || "Unknown"` and the seconds value `g.duration ?? 0`
fed to both formatters (`formatDuration`/`formatDecimalHours` are
presentation-only). -/
def runReportRows (groups : List ApiGroup) : List (String × Int) :=
  groups.map (fun g => (jsOrStr g.name (jsOrStr g.group ("Unknown")), g.duration.getD 0))

theorem foldl_add_getD (init : Int) : ∀ gs : List ApiGroup,
    gs.foldl (fun sum g => sum + g.duration.getD 0) init
      = init + (gs.map (fun g => g.duration.getD 0)).sum
  | [] => by simp
  | g :: t => by
      rw [List.foldl_cons, foldl_add_getD _ t, List.map_cons, List.sum_cons]
      ring

/-- C9: the structured-path total equals the sum over groups of
`duration ?? 0`; a group with a null or missing duration contributes
exactly zero to the total, and every group — null duration included — is
still rendered as one row, never an error. -/
theorem report_total_null_durations_zero (gs gs1 gs2 : List ApiGroup) (g : ApiGroup)
    (hnull : g.duration = none) :
    runReportTotalSeconds gs = (gs.map (fun x => x.duration.getD 0)).sum ∧
    runReportTotalSeconds (gs1 ++ g :: gs2) = runReportTotalSeconds (gs1 ++ gs2) ∧
    (runReportRows gs).length = gs.length ∧
    (runReportRows (gs1 ++ g :: gs2)).length = gs1.length + 1 + gs2.length := by
  refine ⟨?_, ?_, ?_, ?_⟩
  · rw [runReportTotalSeconds, foldl_add_getD]
    omega
  · rw [runReportTotalSeconds, runReportTotalSeconds, foldl_add_getD, foldl_add_getD]
    simp [hnull]
  · rw [runReportRows, List.length_map]
  · rw [runReportRows, List.length_map]
    simp
    omega

/-- Witness for `report_total_null_durations_zero`: a two-group response
whose middle group has a null duration totals the same as without it, and
still renders three rows. -/
theorem report_total_null_durations_zero_witness :
    runReportTotalSeconds
      ([⟨some ("Acme"), none, some 3600⟩] ++ ⟨none, some ("Beta"), none⟩
        :: [⟨none, none, some 1800⟩])
      = runReportTotalSeconds ([⟨some ("Acme"), none, some 3600⟩] ++ [⟨none, none, some 1800⟩]) ∧
    (runReportRows
      ([⟨some ("Acme"), none, some 3600⟩] ++ ⟨none, some ("Beta"), none⟩
        :: [⟨none, none, some 1800⟩])).length = 3 :=
  ⟨(report_total_null_durations_zero [] [⟨some ("Acme"), none, some 3600⟩]
      [⟨none, none, some 1800⟩] ⟨none, some ("Beta"), none⟩ rfl).2.1,
   (report_total_null_durations_zero [] [⟨some ("Acme"), none, some 3600⟩]
      [⟨none, none, some 1800⟩] ⟨none, some ("Beta"), none⟩ rfl).2.2.2⟩

end Clockodo
